import Mathlib

set_option maxHeartbeats 1000000

/-!
Shallow embedding of the `shortguid` crate (`src/lib.rs`).

A `ShortGuid` wraps a `uuid::Uuid` (16 canonical big-endian bytes) and offers
a compact 22-character URL-safe base64 text form next to the canonical
36-character hyphenated UUID text form.  Bytes are modelled as `Nat` values
below 256; a Rust `str` is modelled by a Lean `String`, and its `len()` (which
counts UTF-8 bytes) by the length of `strBytes`.

The `uuid` and `base64` crates are external dependencies whose sources are not
part of this repository; their behaviour that this crate relies on is modelled
from the specification (each such definition carries a
`Modelled from the spec:` doc comment).
-/

/-- UTF-8 encoding of a single character, as its list of byte values.  This is
the standard UTF-8 scheme, shared by Rust's `str` and Lean's `String`; it lets
us model Rust's byte-oriented `str::len` and `str::as_bytes`. -/
def utf8EncodeChar (c : Char) : List Nat :=
  let n := c.toNat
  if n < 128 then [n]
  else if n < 2048 then [192 + n / 64, 128 + n % 64]
  else if n < 65536 then [224 + n / 4096, 128 + n / 64 % 64, 128 + n % 64]
  else [240 + n / 262144, 128 + n / 4096 % 64, 128 + n / 64 % 64, 128 + n % 64]

/-- The UTF-8 bytes of a string: what Rust exposes as `str::as_bytes`, whose
length is `str::len`. -/
def strBytes (s : String) : List Nat := s.data.flatMap utf8EncodeChar

/-- Modelled from the spec: the URL-safe base64 alphabet (standard base64 with
`+` replaced by `-` and `/` replaced by `_`) of
`base64::engine::general_purpose::URL_SAFE_NO_PAD`, an external crate whose
source is not part of this repository.  Byte values of
`A`-`Z`, `a`-`z`, `0`-`9`, `-`, `_`. -/
def b64Alphabet : List Nat :=
  [65, 66, 67, 68, 69, 70, 71, 72, 73, 74, 75, 76, 77, 78, 79, 80, 81, 82, 83,
   84, 85, 86, 87, 88, 89, 90,
   97, 98, 99, 100, 101, 102, 103, 104, 105, 106, 107, 108, 109, 110, 111, 112,
   113, 114, 115, 116, 117, 118, 119, 120, 121, 122,
   48, 49, 50, 51, 52, 53, 54, 55, 56, 57, 45, 95]

/-- The byte (ASCII code) of the base64 symbol with 6-bit value `s`. -/
def b64SymChar (s : Nat) : Nat := b64Alphabet.getD s 0

/-- Index of the first occurrence of `c` in a list, if any. -/
def lookupIdx (c : Nat) : List Nat → Option Nat
  | [] => none
  | a :: rest => if a = c then some 0 else (lookupIdx c rest).map (· + 1)

/-- The 6-bit value of the base64 symbol whose byte is `c`, if `c` is in the
URL-safe alphabet. -/
def b64Index (c : Nat) : Option Nat := lookupIdx c b64Alphabet

/-- Modelled from the spec: base64 encoding (no padding) of a byte sequence as
the list of 6-bit symbol values, three input bytes per four symbols, with a
short final group of two or three symbols for one or two trailing bytes. -/
def b64EncSyms : List Nat → List Nat
  | [] => []
  | [b0] => [b0 / 4, b0 % 4 * 16]
  | [b0, b1] => [b0 / 4, b0 % 4 * 16 + b1 / 16, b1 % 16 * 4]
  | b0 :: b1 :: b2 :: rest =>
      b0 / 4 :: (b0 % 4 * 16 + b1 / 16) :: (b1 % 16 * 4 + b2 / 64) :: b2 % 64 ::
        b64EncSyms rest

/-- Errors of the external base64 decoder, mirroring `base64::DecodeError`. -/
inductive DecodeError where
  | invalidByte (offset : Nat) (byte : Nat)
  | invalidLength (length : Nat)
  | invalidLastSymbol (offset : Nat) (byte : Nat)
deriving DecidableEq

/-- Modelled from the spec: the chunked body of no-padding base64 decoding.
`i` is the offset of the current chunk (used only in error payloads).  Each
full group of four symbols yields three bytes; a final group of two or three
symbols yields one or two bytes and its unused trailing bits must be zero
(the engine rejects non-canonical final symbols). -/
def b64DecodeChunks : Nat → List Nat → Except DecodeError (List Nat)
  | _, [] => .ok []
  | i, [_] => .error (.invalidLength (i + 1))
  | i, [c0, c1] =>
      match b64Index c0 with
      | none => .error (.invalidByte i c0)
      | some s0 =>
        match b64Index c1 with
        | none => .error (.invalidByte (i + 1) c1)
        | some s1 =>
          if s1 % 16 = 0 then .ok [s0 * 4 + s1 / 16]
          else .error (.invalidLastSymbol (i + 1) c1)
  | i, [c0, c1, c2] =>
      match b64Index c0 with
      | none => .error (.invalidByte i c0)
      | some s0 =>
        match b64Index c1 with
        | none => .error (.invalidByte (i + 1) c1)
        | some s1 =>
          match b64Index c2 with
          | none => .error (.invalidByte (i + 2) c2)
          | some s2 =>
            if s2 % 4 = 0 then .ok [s0 * 4 + s1 / 16, s1 % 16 * 16 + s2 / 4]
            else .error (.invalidLastSymbol (i + 2) c2)
  | i, c0 :: c1 :: c2 :: c3 :: rest =>
      match b64Index c0 with
      | none => .error (.invalidByte i c0)
      | some s0 =>
        match b64Index c1 with
        | none => .error (.invalidByte (i + 1) c1)
        | some s1 =>
          match b64Index c2 with
          | none => .error (.invalidByte (i + 2) c2)
          | some s2 =>
            match b64Index c3 with
            | none => .error (.invalidByte (i + 3) c3)
            | some s3 =>
              match b64DecodeChunks (i + 4) rest with
              | .error e => .error e
              | .ok bs =>
                  .ok ((s0 * 4 + s1 / 16) :: (s1 % 16 * 16 + s2 / 4) ::
                    (s2 % 4 * 64 + s3) :: bs)

/-- Modelled from the spec: `base64::engine::general_purpose::URL_SAFE_NO_PAD`
`decode` over the input bytes.  An input length congruent to 1 mod 4 can never
be a no-padding base64 encoding and is rejected outright. -/
def b64Decode (input : List Nat) : Except DecodeError (List Nat) :=
  if input.length % 4 = 1 then .error (.invalidLength input.length)
  else b64DecodeChunks 0 input

/-- The external `uuid::Uuid`: 16 bytes in RFC 4122 big-endian order. -/
structure Uuid where
  bytes : List Nat
deriving DecidableEq

/-- Well-formedness of the embedding: a real `Uuid` is exactly 16 bytes, each
below 256. -/
def Uuid.wf (u : Uuid) : Prop := u.bytes.length = 16 ∧ ∀ b ∈ u.bytes, b < 256

instance (u : Uuid) : Decidable u.wf := by
  unfold Uuid.wf; infer_instance

/-- `uuid::Uuid::default()` / the nil UUID: sixteen zero bytes. -/
def Uuid.nil : Uuid := ⟨List.replicate 16 0⟩

/-- Value of one hexadecimal digit, case-insensitive. -/
def hexVal (c : Char) : Option Nat :=
  let n := c.toNat
  if 48 ≤ n ∧ n ≤ 57 then some (n - 48)
  else if 97 ≤ n ∧ n ≤ 102 then some (n - 87)
  else if 65 ≤ n ∧ n ≤ 70 then some (n - 55)
  else none

/-- Bytes from an even-length run of hexadecimal digits, two digits per byte. -/
def hexPairs : List Char → Option (List Nat)
  | [] => some []
  | [_] => none
  | c0 :: c1 :: rest =>
      match hexVal c0, hexVal c1, hexPairs rest with
      | some hi, some lo, some bs => some ((hi * 16 + lo) :: bs)
      | _, _, _ => none

/-- Modelled from the spec: `uuid::Uuid::try_parse` on the canonical hyphenated
36-character grammar — 8-4-4-4-12 hexadecimal groups separated by hyphens,
case-insensitive (spec §4.2 step 1).  The uuid crate's source is not part of
this repository. -/
def Uuid.tryParse (s : String) : Option Uuid :=
  let cs := s.data
  if cs.length = 36 ∧ cs[8]? = some '-' ∧ cs[13]? = some '-' ∧
      cs[18]? = some '-' ∧ cs[23]? = some '-' then
    match hexPairs ((((cs.eraseIdx 23).eraseIdx 18).eraseIdx 13).eraseIdx 8) with
    | some bs => some ⟨bs⟩
    | none => none
  else none

/-- Modelled from the spec: `uuid::Uuid::to_bytes_le` — a field-wise byte
reversal, not a whole-array reversal: the first four bytes are reversed among
themselves, the next two among themselves, the next two among themselves, and
the final eight keep their order. -/
def Uuid.toBytesLe (u : Uuid) : List Nat :=
  (u.bytes.take 4).reverse ++ ((u.bytes.drop 4).take 2).reverse ++
    ((u.bytes.drop 6).take 2).reverse ++ u.bytes.drop 8

/-- Payload of `uuid::Error` as produced by `Uuid::from_slice`; opaque here,
recording only the offending length. -/
inductive UuidError where
  | wrongLength (got : Nat)
deriving DecidableEq

/-- `shortguid::ParseError` (src/lib.rs, lines 380-389). -/
inductive ParseError where
  | invalidLength (n : Nat)
  | invalidFormat (e : DecodeError)
  | invalidSlice (e : UuidError)
deriving DecidableEq

/-- `shortguid::ShortGuid` (src/lib.rs, line 55): a transparent wrapper around
a `Uuid`. -/
structure ShortGuid where
  uuid : Uuid
deriving DecidableEq

/-- Well-formedness of the wrapped UUID. -/
def ShortGuid.wf (g : ShortGuid) : Prop := g.uuid.wf

instance (g : ShortGuid) : Decidable g.wf := by
  unfold ShortGuid.wf; infer_instance

/-- `ShortGuid::as_bytes` (modulo borrowing): the canonical 16 bytes. -/
def ShortGuid.asBytes (g : ShortGuid) : List Nat := g.uuid.bytes

/-- `ShortGuid::try_decode` (src/lib.rs, lines 210-230): empty input yields the
nil UUID; any other input must be exactly 22 bytes long, decode as URL-safe
no-padding base64, and yield exactly 16 bytes. -/
def ShortGuid.tryDecode (s : String) : Except ParseError Uuid :=
  let v := strBytes s
  if v = [] then .ok Uuid.nil
  else if v.length ≠ 22 then .error (.invalidLength v.length)
  else
    match b64Decode v with
    | .error e => .error (.invalidFormat e)
    | .ok bytes =>
      if bytes.length ≠ 16 then .error (.invalidLength bytes.length)
      else .ok ⟨bytes⟩

/-- `ShortGuid::encode` (src/lib.rs, lines 238-248): URL-safe no-padding base64
of the 16 canonical bytes. -/
def ShortGuid.encode (u : Uuid) : String :=
  String.mk ((b64EncSyms u.bytes).map fun s => Char.ofNat (b64SymChar s))

/-- `ShortGuid::try_parse` (src/lib.rs, lines 75-82): first the canonical UUID
grammar, then the compact form. -/
def ShortGuid.tryParse (s : String) : Except ParseError ShortGuid :=
  match Uuid.tryParse s with
  | some uuid => .ok ⟨uuid⟩
  | none =>
    match ShortGuid.tryDecode s with
    | .ok uuid => .ok ⟨uuid⟩
    | .error e => .error e

/-- `impl PartialEq<str> for ShortGuid` (src/lib.rs, lines 316-328; the
`String` and `&str` impls at lines 302-314 and 330-334 have the same body):
compact-form decode first, then the canonical UUID grammar, `false` if both
fail. -/
def ShortGuid.eqStr (g : ShortGuid) (other : String) : Bool :=
  match ShortGuid.tryDecode other with
  | .ok uuid => decide (g.uuid = uuid)
  | .error _ =>
    match Uuid.tryParse other with
    | some uuid => decide (g.uuid = uuid)
    | none => false

/-- `impl PartialEq<Vec<u8>> for ShortGuid` (src/lib.rs, lines 336-340):
length must be 16 and the bytes must match. -/
def ShortGuid.eqVec (g : ShortGuid) (other : List Nat) : Bool :=
  decide (other.length = 16) && decide (g.uuid.bytes = other)

/-- `impl PartialEq<&[u8]> for ShortGuid` (src/lib.rs, lines 342-346): same
test as for `Vec<u8>`. -/
def ShortGuid.eqSlice (g : ShortGuid) (other : List Nat) : Bool :=
  decide (other.length = 16) && decide (g.uuid.bytes = other)

/-- `impl PartialEq<[u8; 16]> for ShortGuid` (src/lib.rs, lines 348-358): the
argument is a 16-element array by type, compared byte for byte. -/
def ShortGuid.eqArray16 (g : ShortGuid) (other : List Nat) : Bool :=
  decide (g.uuid.bytes = other)

/-- `u8::cmp`. -/
def byteCmp (a b : Nat) : Ordering :=
  if a < b then .lt else if b < a then .gt else .eq

/-- The derived `Ord` of `[u8; 16]` (hence of `Uuid` and `ShortGuid`):
lexicographic, element by element. -/
def bytesCmp : List Nat → List Nat → Ordering
  | [], [] => .eq
  | [], _ :: _ => .lt
  | _ :: _, [] => .gt
  | a :: as, b :: bs =>
      match byteCmp a b with
      | .eq => bytesCmp as bs
      | o => o

/-- The derived `PartialOrd`/`Ord` `le` of `ShortGuid`: comparison of the
canonical bytes is not `Greater`. -/
def ShortGuid.le (a b : ShortGuid) : Bool :=
  decide (bytesCmp a.uuid.bytes b.uuid.bytes ≠ Ordering.gt)

/-- The data fed to the hasher by the derived `Hash` of `ShortGuid`: exactly
the canonical 16 bytes, nothing else. -/
def ShortGuid.hashBytes (g : ShortGuid) : List Nat := g.uuid.bytes

/-! ### Helper lemmas about the base64 codec -/

theorem b64Index_symChar {s : Nat} (h : s < 64) : b64Index (b64SymChar s) = some s := by
  revert s h
  decide

theorem b64SymChar_lt_128 {s : Nat} (h : s < 64) : b64SymChar s < 128 := by
  revert s h
  decide

theorem utf8EncodeChar_symChar {s : Nat} (h : s < 64) :
    utf8EncodeChar (Char.ofNat (b64SymChar s)) = [b64SymChar s] := by
  revert s h
  decide

theorem lookupIdx_mem : ∀ (l : List Nat) (c i : Nat), lookupIdx c l = some i → c ∈ l := by
  intro l
  induction l with
  | nil => intro c i h; simp [lookupIdx] at h
  | cons a rest ih =>
    intro c i h
    by_cases hac : a = c
    · simp [hac]
    · simp only [lookupIdx, if_neg hac, Option.map_eq_some'] at h
      obtain ⟨j, hj, _⟩ := h
      exact List.mem_cons_of_mem _ (ih c j hj)

theorem b64Index_lt_128 {c s : Nat} (h : b64Index c = some s) : c < 128 := by
  have hmem := lookupIdx_mem _ _ _ h
  have hall : ∀ a ∈ b64Alphabet, a < 128 := by decide
  exact hall c hmem

/-- Every symbol produced by the encoder is a 6-bit value. -/
theorem b64EncSyms_lt_64 : ∀ (bs : List Nat), (∀ b ∈ bs, b < 256) →
    ∀ s ∈ b64EncSyms bs, s < 64
  | [], _ => by simp [b64EncSyms]
  | [b0], h => by
      have hb0 : b0 < 256 := h b0 (by simp)
      simp only [b64EncSyms, List.mem_cons, List.not_mem_nil, or_false]
      rintro s (rfl | rfl) <;> omega
  | [b0, b1], h => by
      have hb0 : b0 < 256 := h b0 (by simp)
      have hb1 : b1 < 256 := h b1 (by simp)
      simp only [b64EncSyms, List.mem_cons, List.not_mem_nil, or_false]
      rintro s (rfl | rfl | rfl) <;> omega
  | b0 :: b1 :: b2 :: rest, h => by
      have hb0 : b0 < 256 := h b0 (by simp)
      have hb1 : b1 < 256 := h b1 (by simp)
      have hb2 : b2 < 256 := h b2 (by simp)
      have ih := b64EncSyms_lt_64 rest (fun b hb => h b (by simp [hb]))
      simp only [b64EncSyms, List.mem_cons]
      rintro s (rfl | rfl | rfl | rfl | hs)
      · omega
      · omega
      · omega
      · omega
      · exact ih s hs

/-- Length of the encoder's symbol list: four symbols per three bytes, plus a
final group of two or three symbols for one or two leftover bytes. -/
theorem b64EncSyms_length : ∀ bs : List Nat,
    (b64EncSyms bs).length =
      bs.length / 3 * 4 + (if bs.length % 3 = 0 then 0 else bs.length % 3 + 1)
  | [] => rfl
  | [_] => by simp [b64EncSyms]
  | [_, _] => by simp [b64EncSyms]
  | b0 :: b1 :: b2 :: rest => by
      have ih := b64EncSyms_length rest
      simp only [b64EncSyms, List.length_cons] at ih ⊢
      split at ih <;> split <;> omega

/-- Decoding inverts encoding: the heart of the round-trip property. -/
theorem b64DecodeChunks_encSyms : ∀ (bs : List Nat), (∀ b ∈ bs, b < 256) →
    ∀ i, b64DecodeChunks i ((b64EncSyms bs).map b64SymChar) = .ok bs
  | [], _, _ => rfl
  | [b0], h, i => by
      have hb0 : b0 < 256 := h b0 (by simp)
      simp only [b64EncSyms, List.map, b64DecodeChunks,
        b64Index_symChar (show b0 / 4 < 64 by omega),
        b64Index_symChar (show b0 % 4 * 16 < 64 by omega)]
      rw [if_pos (by omega)]
      have : b0 / 4 * 4 + b0 % 4 * 16 / 16 = b0 := by omega
      rw [this]
  | [b0, b1], h, i => by
      have hb0 : b0 < 256 := h b0 (by simp)
      have hb1 : b1 < 256 := h b1 (by simp)
      simp only [b64EncSyms, List.map, b64DecodeChunks,
        b64Index_symChar (show b0 / 4 < 64 by omega),
        b64Index_symChar (show b0 % 4 * 16 + b1 / 16 < 64 by omega),
        b64Index_symChar (show b1 % 16 * 4 < 64 by omega)]
      rw [if_pos (by omega)]
      have e0 : b0 / 4 * 4 + (b0 % 4 * 16 + b1 / 16) / 16 = b0 := by omega
      have e1 : (b0 % 4 * 16 + b1 / 16) % 16 * 16 + b1 % 16 * 4 / 4 = b1 := by omega
      rw [e0, e1]
  | b0 :: b1 :: b2 :: rest, h, i => by
      have hb0 : b0 < 256 := h b0 (by simp)
      have hb1 : b1 < 256 := h b1 (by simp)
      have hb2 : b2 < 256 := h b2 (by simp)
      have ih := b64DecodeChunks_encSyms rest (fun b hb => h b (by simp [hb])) (i + 4)
      simp only [b64EncSyms, List.map, b64DecodeChunks,
        b64Index_symChar (show b0 / 4 < 64 by omega),
        b64Index_symChar (show b0 % 4 * 16 + b1 / 16 < 64 by omega),
        b64Index_symChar (show b1 % 16 * 4 + b2 / 64 < 64 by omega),
        b64Index_symChar (show b2 % 64 < 64 by omega), ih]
      have e0 : b0 / 4 * 4 + (b0 % 4 * 16 + b1 / 16) / 16 = b0 := by omega
      have e1 : (b0 % 4 * 16 + b1 / 16) % 16 * 16 + (b1 % 16 * 4 + b2 / 64) / 4 = b1 := by
        omega
      have e2 : (b1 % 16 * 4 + b2 / 64) % 4 * 64 + b2 % 64 = b2 := by omega
      rw [e0, e1, e2]

/-- A successful chunked decode of `v` yields `v.length * 3 / 4` bytes. -/
theorem b64DecodeChunks_ok_length : ∀ (v : List Nat) (i : Nat) (bs : List Nat),
    b64DecodeChunks i v = .ok bs → bs.length = v.length * 3 / 4
  | [], _, bs, h => by
      simp only [b64DecodeChunks, Except.ok.injEq] at h
      simp [← h]
  | [_], _, bs, h => by
      simp [b64DecodeChunks] at h
  | [c0, c1], i, bs, h => by
      simp only [b64DecodeChunks] at h
      split at h
      · exact absurd h (by simp)
      · split at h
        · exact absurd h (by simp)
        · split at h
          · simp only [Except.ok.injEq] at h
            simp [← h]
          · exact absurd h (by simp)
  | [c0, c1, c2], i, bs, h => by
      simp only [b64DecodeChunks] at h
      split at h
      · exact absurd h (by simp)
      · split at h
        · exact absurd h (by simp)
        · split at h
          · exact absurd h (by simp)
          · split at h
            · simp only [Except.ok.injEq] at h
              simp [← h]
            · exact absurd h (by simp)
  | c0 :: c1 :: c2 :: c3 :: rest, i, bs, h => by
      simp only [b64DecodeChunks] at h
      split at h
      · exact absurd h (by simp)
      · split at h
        · exact absurd h (by simp)
        · split at h
          · exact absurd h (by simp)
          · split at h
            · exact absurd h (by simp)
            · split at h
              · exact absurd h (by simp)
              · rename_i bs' heq
                have ih := b64DecodeChunks_ok_length rest (i + 4) bs' heq
                simp only [Except.ok.injEq] at h
                subst h
                simp only [List.length_cons]
                omega

/-- A successful chunked decode only reads bytes of the base64 alphabet, which
are all ASCII. -/
theorem b64DecodeChunks_ok_ascii : ∀ (v : List Nat) (i : Nat) (bs : List Nat),
    b64DecodeChunks i v = .ok bs → ∀ c ∈ v, c < 128
  | [], _, _, _ => by simp
  | [_], _, bs, h => by simp [b64DecodeChunks] at h
  | [c0, c1], i, bs, h => by
      simp only [b64DecodeChunks] at h
      split at h
      · exact absurd h (by simp)
      · rename_i s0 h0
        split at h
        · exact absurd h (by simp)
        · rename_i s1 h1
          simp only [List.mem_cons, List.not_mem_nil, or_false]
          rintro c (rfl | rfl)
          · exact b64Index_lt_128 h0
          · exact b64Index_lt_128 h1
  | [c0, c1, c2], i, bs, h => by
      simp only [b64DecodeChunks] at h
      split at h
      · exact absurd h (by simp)
      · rename_i s0 h0
        split at h
        · exact absurd h (by simp)
        · rename_i s1 h1
          split at h
          · exact absurd h (by simp)
          · rename_i s2 h2
            simp only [List.mem_cons, List.not_mem_nil, or_false]
            rintro c (rfl | rfl | rfl)
            · exact b64Index_lt_128 h0
            · exact b64Index_lt_128 h1
            · exact b64Index_lt_128 h2
  | c0 :: c1 :: c2 :: c3 :: rest, i, bs, h => by
      simp only [b64DecodeChunks] at h
      split at h
      · exact absurd h (by simp)
      · rename_i s0 h0
        split at h
        · exact absurd h (by simp)
        · rename_i s1 h1
          split at h
          · exact absurd h (by simp)
          · rename_i s2 h2
            split at h
            · exact absurd h (by simp)
            · rename_i s3 h3
              split at h
              · exact absurd h (by simp)
              · rename_i bs' heq
                have ih := b64DecodeChunks_ok_ascii rest (i + 4) bs' heq
                simp only [List.mem_cons]
                rintro c (rfl | rfl | rfl | rfl | hc)
                · exact b64Index_lt_128 h0
                · exact b64Index_lt_128 h1
                · exact b64Index_lt_128 h2
                · exact b64Index_lt_128 h3
                · exact ih c hc

/-! ### Helper lemmas about UTF-8 strings -/

theorem utf8EncodeChar_ne_nil (c : Char) : utf8EncodeChar c ≠ [] := by
  simp only [utf8EncodeChar]
  split_ifs <;> simp

theorem strBytes_nil_iff (s : String) : strBytes s = [] ↔ s = "" := by
  obtain ⟨l⟩ := s
  cases l with
  | nil => simp [strBytes]
  | cons c cs =>
    constructor
    · intro h
      have : utf8EncodeChar c ++ strBytes ⟨cs⟩ = [] := h
      exact absurd (List.append_eq_nil.mp this).1 (utf8EncodeChar_ne_nil c)
    · intro h
      exact absurd (congrArg String.data h) (by simp)

theorem utf8EncodeChar_length_one {c : Char}
    (h : ∀ b ∈ utf8EncodeChar c, b < 128) : (utf8EncodeChar c).length = 1 := by
  simp only [utf8EncodeChar] at h ⊢
  split_ifs at h ⊢ with h1 h2 h3
  · rfl
  · exact absurd (h (192 + c.toNat / 64) (by simp)) (by omega)
  · exact absurd (h (224 + c.toNat / 4096) (by simp)) (by omega)
  · exact absurd (h (240 + c.toNat / 262144) (by simp)) (by omega)

/-- A string whose UTF-8 bytes are all ASCII has as many characters as bytes. -/
theorem strBytes_ascii_length : ∀ (l : List Char),
    (∀ b ∈ strBytes ⟨l⟩, b < 128) → l.length = (strBytes ⟨l⟩).length
  | [] => by simp [strBytes]
  | c :: cs => fun h => by
      have hsplit : strBytes ⟨c :: cs⟩ = utf8EncodeChar c ++ strBytes ⟨cs⟩ := rfl
      rw [hsplit] at h ⊢
      have hc : (utf8EncodeChar c).length = 1 :=
        utf8EncodeChar_length_one (fun b hb => h b (by simp [hb]))
      have ih := strBytes_ascii_length cs (fun b hb => h b (by simp [hb]))
      simp only [List.length_cons, List.length_append, hc, ih]
      omega

/-- The UTF-8 bytes of the encoder's output string are exactly the base64
symbol bytes. -/
theorem strBytes_mk_symChars : ∀ (syms : List Nat), (∀ s ∈ syms, s < 64) →
    strBytes ⟨syms.map fun s => Char.ofNat (b64SymChar s)⟩ = syms.map b64SymChar
  | [] => by simp [strBytes]
  | s :: rest => fun h => by
      have hs : s < 64 := h s (by simp)
      have ih := strBytes_mk_symChars rest (fun x hx => h x (by simp [hx]))
      have hsplit : strBytes ⟨(s :: rest).map fun x => Char.ofNat (b64SymChar x)⟩ =
          utf8EncodeChar (Char.ofNat (b64SymChar s)) ++
            strBytes ⟨rest.map fun x => Char.ofNat (b64SymChar x)⟩ := rfl
      rw [hsplit, utf8EncodeChar_symChar hs, ih]
      rfl

/-! ### Helper lemmas about byte comparison -/

theorem byteCmp_swap (a b : Nat) : byteCmp b a = (byteCmp a b).swap := by
  unfold byteCmp
  split_ifs <;> first | rfl | omega

theorem byteCmp_self (a : Nat) : byteCmp a a = .eq := by
  unfold byteCmp
  split_ifs <;> first | rfl | omega

theorem byteCmp_eq_iff (a b : Nat) : byteCmp a b = .eq ↔ a = b := by
  unfold byteCmp
  split_ifs <;> simp <;> omega

theorem byteCmp_lt_iff (a b : Nat) : byteCmp a b = .lt ↔ a < b := by
  unfold byteCmp
  split_ifs <;> simp <;> omega

theorem byteCmp_gt_iff (a b : Nat) : byteCmp a b = .gt ↔ b < a := by
  unfold byteCmp
  split_ifs <;> simp <;> omega

theorem bytesCmp_eq_iff : ∀ xs ys : List Nat, bytesCmp xs ys = .eq ↔ xs = ys
  | [], [] => by simp [bytesCmp]
  | [], _ :: _ => by simp [bytesCmp]
  | _ :: _, [] => by simp [bytesCmp]
  | x :: xs, y :: ys => by
      have ih := bytesCmp_eq_iff xs ys
      simp only [bytesCmp]
      rcases Nat.lt_trichotomy x y with hxy | hxy | hxy
      · rw [(byteCmp_lt_iff x y).mpr hxy]
        simp
        omega
      · subst hxy
        rw [byteCmp_self]
        simp [ih]
      · rw [(byteCmp_gt_iff x y).mpr hxy]
        simp
        omega

theorem bytesCmp_swap : ∀ xs ys : List Nat, bytesCmp ys xs = (bytesCmp xs ys).swap
  | [], [] => rfl
  | [], _ :: _ => rfl
  | _ :: _, [] => rfl
  | x :: xs, y :: ys => by
      have ih := bytesCmp_swap xs ys
      rcases Nat.lt_trichotomy x y with hxy | hxy | hxy
      · have h1 : byteCmp y x = .gt := (byteCmp_gt_iff y x).mpr hxy
        have h2 : byteCmp x y = .lt := (byteCmp_lt_iff x y).mpr hxy
        simp only [bytesCmp, h1, h2]
        rfl
      · subst hxy
        simp only [bytesCmp, byteCmp_self]
        exact ih
      · have h1 : byteCmp y x = .lt := (byteCmp_lt_iff y x).mpr hxy
        have h2 : byteCmp x y = .gt := (byteCmp_gt_iff x y).mpr hxy
        simp only [bytesCmp, h1, h2]
        rfl

theorem bytesCmp_lt_iff_lex : ∀ xs ys : List Nat,
    bytesCmp xs ys = .lt ↔ List.Lex (· < ·) xs ys
  | [], [] => ⟨fun h => (nomatch h), fun h => (nomatch h)⟩
  | [], _ :: _ => ⟨fun _ => List.Lex.nil, fun _ => rfl⟩
  | _ :: _, [] => ⟨fun h => (nomatch h), fun h => (nomatch h)⟩
  | x :: xs, y :: ys => by
      have ih := bytesCmp_lt_iff_lex xs ys
      rcases Nat.lt_trichotomy x y with hxy | hxy | hxy
      · constructor
        · intro _
          exact List.Lex.rel hxy
        · intro _
          simp only [bytesCmp]
          rw [(byteCmp_lt_iff x y).mpr hxy]
      · subst hxy
        have hred : bytesCmp (x :: xs) (x :: ys) = bytesCmp xs ys := by
          simp only [bytesCmp, byteCmp_self]
        rw [hred, ih]
        constructor
        · exact List.Lex.cons
        · intro h
          cases h with
          | cons h => exact h
          | rel h => omega
      · have hred : bytesCmp (x :: xs) (y :: ys) = .gt := by
          simp only [bytesCmp, (byteCmp_gt_iff x y).mpr hxy]
        rw [hred]
        constructor
        · intro h
          exact absurd h (by decide)
        · intro h
          cases h with
          | cons h => omega
          | rel h => omega

theorem bytesCmp_ne_gt_trans : ∀ xs ys zs : List Nat,
    bytesCmp xs ys ≠ .gt → bytesCmp ys zs ≠ .gt → bytesCmp xs zs ≠ .gt
  | [], _, zs, _, _ => by cases zs <;> simp [bytesCmp]
  | _ :: _, [], _, h1, _ => by simp [bytesCmp] at h1
  | _ :: _, _ :: _, [], _, h2 => by simp [bytesCmp] at h2
  | x :: xs, y :: ys, z :: zs, h1, h2 => by
      have ih := bytesCmp_ne_gt_trans xs ys zs
      simp only [bytesCmp] at h1 h2 ⊢
      rcases Nat.lt_trichotomy x y with hxy | hxy | hxy
      · rcases Nat.lt_trichotomy y z with hyz | hyz | hyz
        · rw [(byteCmp_lt_iff x z).mpr (by omega)]
          simp
        · rw [(byteCmp_lt_iff x z).mpr (by omega)]
          simp
        · rw [(byteCmp_gt_iff y z).mpr hyz] at h2
          exact absurd rfl h2
      · subst hxy
        rcases Nat.lt_trichotomy x z with hyz | hyz | hyz
        · rw [(byteCmp_lt_iff x z).mpr hyz]
          simp
        · subst hyz
          rw [byteCmp_self] at h1 h2 ⊢
          exact ih h1 h2
        · rw [(byteCmp_gt_iff x z).mpr hyz] at h2
          exact absurd rfl h2
      · rw [(byteCmp_gt_iff x y).mpr hxy] at h1
        exact absurd rfl h1

/-! ### Helper lemmas about the crate's codec -/

theorem uuidTryParse_of_data_length_ne {s : String} (h : s.data.length ≠ 36) :
    Uuid.tryParse s = none := by
  simp only [Uuid.tryParse]
  rw [if_neg (fun hc => h hc.1)]

/-- `try_decode` inverts `encode` on every well-formed UUID. -/
theorem tryDecode_encode (u : Uuid) (h : u.wf) :
    ShortGuid.tryDecode (ShortGuid.encode u) = .ok u := by
  obtain ⟨hlen, hlt⟩ := h
  have hstr : strBytes (ShortGuid.encode u) = (b64EncSyms u.bytes).map b64SymChar :=
    strBytes_mk_symChars _ (b64EncSyms_lt_64 u.bytes hlt)
  have hslen : ((b64EncSyms u.bytes).map b64SymChar).length = 22 := by
    rw [List.length_map, b64EncSyms_length, hlen]
    decide
  have hchunks := b64DecodeChunks_encSyms u.bytes hlt 0
  simp only [ShortGuid.tryDecode, hstr]
  rw [if_neg (fun hh => by rw [hh] at hslen; simp at hslen)]
  rw [if_neg (by omega)]
  have hdec : b64Decode ((b64EncSyms u.bytes).map b64SymChar) = .ok u.bytes := by
    simp only [b64Decode, hslen]
    rw [if_neg (by omega)]
    exact hchunks
  simp only [hdec]
  rw [if_neg (by omega)]

/-- The number of characters in the encoder's output. -/
theorem encode_data_length (u : Uuid) (h : u.bytes.length = 16) :
    (ShortGuid.encode u).data.length = 22 := by
  have : (ShortGuid.encode u).data =
      (b64EncSyms u.bytes).map fun s => Char.ofNat (b64SymChar s) := rfl
  rw [this, List.length_map, b64EncSyms_length, h]
  decide

/-- Success characterisation of `try_decode`. -/
theorem tryDecode_isOk_iff (s : String) :
    (ShortGuid.tryDecode s).isOk = true ↔
      (s = "" ∨ ((strBytes s).length = 22 ∧ (b64Decode (strBytes s)).isOk = true)) := by
  constructor
  · intro hok
    by_cases hs : s = ""
    · exact Or.inl hs
    · right
      have hne : strBytes s ≠ [] := fun hh => hs ((strBytes_nil_iff s).mp hh)
      simp only [ShortGuid.tryDecode] at hok
      rw [if_neg hne] at hok
      by_cases hlen : (strBytes s).length = 22
      · refine ⟨hlen, ?_⟩
        rw [if_neg (by omega)] at hok
        cases hdec : b64Decode (strBytes s) with
        | error e => rw [hdec] at hok; simp [Except.isOk, Except.toBool] at hok
        | ok bs => simp [Except.isOk, Except.toBool]
      · rw [if_pos (by omega)] at hok
        simp [Except.isOk, Except.toBool] at hok
  · intro hcases
    rcases hcases with rfl | ⟨hlen, hdec⟩
    · rfl
    · have hne : strBytes s ≠ [] := by
        intro hh
        rw [hh] at hlen
        simp at hlen
      cases hdecv : b64Decode (strBytes s) with
      | error e => rw [hdecv] at hdec; simp [Except.isOk, Except.toBool] at hdec
      | ok bs =>
          have hbs : bs.length = 16 := by
            have hchunks : b64DecodeChunks 0 (strBytes s) = .ok bs := by
              unfold b64Decode at hdecv
              rw [if_neg (by omega)] at hdecv
              exact hdecv
            have := b64DecodeChunks_ok_length _ _ _ hchunks
            omega
          simp only [ShortGuid.tryDecode]
          rw [if_neg hne, if_neg (by omega)]
          simp only [hdecv]
          rw [if_neg (by omega)]
          rfl

/-! ### Claim theorems -/

/-- C1: for every 16-byte value v, compact-form decoding of the compact-form
encoding of v succeeds and returns v; equally, `try_parse` of the encoding
succeeds and the resulting identifier's bytes are v's bytes. -/
theorem ShortGuid.decode_encode_roundtrip (u : Uuid) (h : u.wf) :
    ShortGuid.tryDecode (ShortGuid.encode u) = .ok u ∧
    ShortGuid.tryParse (ShortGuid.encode u) = .ok ⟨u⟩ ∧
    (ShortGuid.mk u).asBytes = u.bytes := by
  have hdec := tryDecode_encode u h
  refine ⟨hdec, ?_, rfl⟩
  have hnone : Uuid.tryParse (ShortGuid.encode u) = none :=
    uuidTryParse_of_data_length_ne (by rw [encode_data_length u h.1]; omega)
  simp only [ShortGuid.tryParse, hnone, hdec]

theorem ShortGuid.decode_encode_roundtrip_witness :
    Uuid.nil.wf ∧ ShortGuid.tryDecode (ShortGuid.encode Uuid.nil) = .ok Uuid.nil :=
  ⟨by decide, (ShortGuid.decode_encode_roundtrip Uuid.nil (by decide)).1⟩

/-- C3: `to_bytes_le` returns the 16-byte field-wise reversal of the canonical
bytes — bytes 0-3 reversed among themselves, bytes 4-5 reversed, bytes 6-7
reversed, bytes 8-15 unchanged (the input identifier is a pure value and is
not modified). -/
theorem Uuid.toBytesLe_field_reversal
    (b0 b1 b2 b3 b4 b5 b6 b7 b8 b9 b10 b11 b12 b13 b14 b15 : Nat) :
    Uuid.toBytesLe ⟨[b0, b1, b2, b3, b4, b5, b6, b7,
        b8, b9, b10, b11, b12, b13, b14, b15]⟩ =
      [b3, b2, b1, b0, b5, b4, b7, b6, b8, b9, b10, b11, b12, b13, b14, b15] ∧
    (Uuid.toBytesLe ⟨[b0, b1, b2, b3, b4, b5, b6, b7,
        b8, b9, b10, b11, b12, b13, b14, b15]⟩).length = 16 :=
  ⟨rfl, rfl⟩

/-- C5: equality of an identifier against text never errors: it compares with
the compact-form decode when that succeeds, else with the canonical-UUID
parse when that succeeds, and is false when both fail. -/
theorem ShortGuid.eqStr_spec (g : ShortGuid) (s : String) :
    (∀ u, ShortGuid.tryDecode s = .ok u →
      (ShortGuid.eqStr g s = true ↔ g.uuid = u)) ∧
    (∀ e u, ShortGuid.tryDecode s = .error e → Uuid.tryParse s = some u →
      (ShortGuid.eqStr g s = true ↔ g.uuid = u)) ∧
    (∀ e, ShortGuid.tryDecode s = .error e → Uuid.tryParse s = none →
      ShortGuid.eqStr g s = false) := by
  refine ⟨?_, ?_, ?_⟩
  · intro u hu
    simp only [ShortGuid.eqStr, hu, decide_eq_true_eq]
  · intro e u he hu
    simp only [ShortGuid.eqStr, he, hu, decide_eq_true_eq]
  · intro e he hu
    simp only [ShortGuid.eqStr, he, hu]

theorem ShortGuid.eqStr_spec_witness :
    (ShortGuid.eqStr ⟨Uuid.nil⟩ "" = true ↔ (⟨Uuid.nil⟩ : ShortGuid).uuid = Uuid.nil) ∧
    ShortGuid.eqStr ⟨Uuid.nil⟩ "x" = false :=
  ⟨(ShortGuid.eqStr_spec ⟨Uuid.nil⟩ "").1 Uuid.nil rfl,
   (ShortGuid.eqStr_spec ⟨Uuid.nil⟩ "x").2.2 (ParseError.invalidLength 1) rfl rfl⟩

/-- C6: encoding is total (a Lean function cannot fail) and its output has
exactly 22 characters — and also exactly 22 UTF-8 bytes — for every
well-formed 16-byte input. -/
theorem ShortGuid.encode_length_22 (u : Uuid) (h : u.wf) :
    (ShortGuid.encode u).length = 22 ∧ (strBytes (ShortGuid.encode u)).length = 22 := by
  constructor
  · exact encode_data_length u h.1
  · have hstr : strBytes (ShortGuid.encode u) = (b64EncSyms u.bytes).map b64SymChar :=
      strBytes_mk_symChars _ (b64EncSyms_lt_64 u.bytes h.2)
    rw [hstr, List.length_map, b64EncSyms_length, h.1]
    decide

theorem ShortGuid.encode_length_22_witness :
    (ShortGuid.encode Uuid.nil).length = 22 :=
  (ShortGuid.encode_length_22 Uuid.nil (by decide)).1

/-- C7: the empty string decodes to the nil identifier (not an InvalidLength
error), and every other accepted input has length exactly 22 — in characters
and in UTF-8 bytes —, so 0 is the only other accepted length. -/
theorem ShortGuid.tryDecode_empty_nil_only (s : String) :
    ShortGuid.tryDecode "" = .ok Uuid.nil ∧
    ((ShortGuid.tryDecode s).isOk = true →
      s = "" ∨ (s.length = 22 ∧ (strBytes s).length = 22)) := by
  refine ⟨rfl, fun hok => ?_⟩
  rcases (tryDecode_isOk_iff s).mp hok with rfl | ⟨hlen, hdec⟩
  · exact Or.inl rfl
  · right
    refine ⟨?_, hlen⟩
    cases hdecv : b64Decode (strBytes s) with
    | error e => rw [hdecv] at hdec; simp [Except.isOk, Except.toBool] at hdec
    | ok bs =>
        have hchunks : b64DecodeChunks 0 (strBytes s) = .ok bs := by
          unfold b64Decode at hdecv
          rw [if_neg (by omega)] at hdecv
          exact hdecv
        have hascii := b64DecodeChunks_ok_ascii _ _ _ hchunks
        have hcharlen : s.data.length = (strBytes s).length :=
          strBytes_ascii_length s.data hascii
        show s.data.length = 22
        omega

theorem ShortGuid.tryDecode_empty_nil_only_witness :
    "AAAAAAAAAAAAAAAAAAAAAA" = "" ∨
      (("AAAAAAAAAAAAAAAAAAAAAA" : String).length = 22 ∧
        (strBytes "AAAAAAAAAAAAAAAAAAAAAA").length = 22) :=
  (ShortGuid.tryDecode_empty_nil_only "AAAAAAAAAAAAAAAAAAAAAA").2 (by decide)

/-- C8: equality against a byte buffer of arbitrary length is true exactly
when the buffer has length 16 and matches the canonical bytes; for any other
length (0, 17, ...) it is false and never an error; a 16-element array
compares byte for byte. -/
theorem ShortGuid.eqBytes_spec (g : ShortGuid) (buf : List Nat) :
    (ShortGuid.eqVec g buf = true ↔ (buf.length = 16 ∧ buf = g.uuid.bytes)) ∧
    (ShortGuid.eqSlice g buf = true ↔ (buf.length = 16 ∧ buf = g.uuid.bytes)) ∧
    (buf.length ≠ 16 →
      ShortGuid.eqVec g buf = false ∧ ShortGuid.eqSlice g buf = false) ∧
    (buf.length = 16 → (ShortGuid.eqArray16 g buf = true ↔ buf = g.uuid.bytes)) := by
  refine ⟨?_, ?_, ?_, ?_⟩
  · simp only [ShortGuid.eqVec, Bool.and_eq_true, decide_eq_true_eq]
    constructor
    · rintro ⟨h1, h2⟩
      exact ⟨h1, h2.symm⟩
    · rintro ⟨h1, h2⟩
      exact ⟨h1, h2.symm⟩
  · simp only [ShortGuid.eqSlice, Bool.and_eq_true, decide_eq_true_eq]
    constructor
    · rintro ⟨h1, h2⟩
      exact ⟨h1, h2.symm⟩
    · rintro ⟨h1, h2⟩
      exact ⟨h1, h2.symm⟩
  · intro hbuf
    constructor
    · simp [ShortGuid.eqVec, hbuf]
    · simp [ShortGuid.eqSlice, hbuf]
  · intro _
    simp only [ShortGuid.eqArray16, decide_eq_true_eq]
    constructor
    · exact fun h => h.symm
    · exact fun h => h.symm

theorem ShortGuid.eqBytes_spec_witness :
    ShortGuid.eqVec ⟨Uuid.nil⟩ [0, 1] = false ∧
      ShortGuid.eqSlice ⟨Uuid.nil⟩ [0, 1] = false :=
  (ShortGuid.eqBytes_spec ⟨Uuid.nil⟩ [0, 1]).2.2.1 (by decide)

/-- C10: the empty-string leniency of compact decoding flows into equality:
an identifier equals the empty string exactly when it is the nil
identifier. -/
theorem ShortGuid.eqStr_empty_iff_nil (g : ShortGuid) :
    ShortGuid.eqStr g "" = true ↔ g.uuid = Uuid.nil := by
  have h : ShortGuid.tryDecode "" = .ok Uuid.nil := rfl
  simp only [ShortGuid.eqStr, h, decide_eq_true_eq]

/-- C9: the derived order is lexicographic over the 16 canonical bytes,
equality is exactly byte equality, the hasher input is a function of the
canonical bytes only, and the order is reflexive, total, antisymmetric and
transitive (a total order consistent with equality). -/
theorem ShortGuid.order_hash_spec (a b : ShortGuid) :
    (ShortGuid.le a b = true ↔
      (a.uuid.bytes = b.uuid.bytes ∨
        List.Lex (· < ·) a.uuid.bytes b.uuid.bytes)) ∧
    (a = b ↔ a.uuid.bytes = b.uuid.bytes) ∧
    (a.uuid.bytes = b.uuid.bytes → ShortGuid.hashBytes a = ShortGuid.hashBytes b) ∧
    ShortGuid.le a a = true ∧
    (ShortGuid.le a b = true ∨ ShortGuid.le b a = true) ∧
    (ShortGuid.le a b = true → ShortGuid.le b a = true → a = b) ∧
    (∀ c, ShortGuid.le a b = true → ShortGuid.le b c = true →
      ShortGuid.le a c = true) := by
  have heq : ∀ x y : ShortGuid, x = y ↔ x.uuid.bytes = y.uuid.bytes := by
    intro x y
    constructor
    · intro h
      rw [h]
    · intro h
      obtain ⟨⟨xs⟩⟩ := x
      obtain ⟨⟨ys⟩⟩ := y
      exact congrArg (fun l => ShortGuid.mk (Uuid.mk l)) h
  refine ⟨?_, heq a b, ?_, ?_, ?_, ?_, ?_⟩
  · simp only [ShortGuid.le, decide_eq_true_eq]
    cases hc : bytesCmp a.uuid.bytes b.uuid.bytes with
    | lt =>
        simp only [ne_eq, reduceCtorEq, not_false_eq_true, true_iff]
        exact Or.inr ((bytesCmp_lt_iff_lex _ _).mp hc)
    | eq =>
        simp only [ne_eq, reduceCtorEq, not_false_eq_true, true_iff]
        exact Or.inl ((bytesCmp_eq_iff _ _).mp hc)
    | gt =>
        simp only [ne_eq, not_true_eq_false, false_iff]
        rintro (hbeq | hlex)
        · have h2 := (bytesCmp_eq_iff _ _).mpr hbeq
          rw [hc] at h2
          exact (nomatch h2)
        · have h2 := (bytesCmp_lt_iff_lex _ _).mpr hlex
          rw [hc] at h2
          exact (nomatch h2)
  · intro h
    exact h
  · have hself : bytesCmp a.uuid.bytes a.uuid.bytes = .eq :=
      (bytesCmp_eq_iff _ _).mpr rfl
    simp [ShortGuid.le, hself]
  · cases hc : bytesCmp a.uuid.bytes b.uuid.bytes with
    | lt => exact Or.inl (by simp [ShortGuid.le, hc])
    | eq => exact Or.inl (by simp [ShortGuid.le, hc])
    | gt =>
        refine Or.inr ?_
        have hswap : bytesCmp b.uuid.bytes a.uuid.bytes = .lt := by
          rw [bytesCmp_swap, hc]
          rfl
        simp [ShortGuid.le, hswap]
  · intro h1 h2
    simp only [ShortGuid.le, decide_eq_true_eq] at h1 h2
    cases hc : bytesCmp a.uuid.bytes b.uuid.bytes with
    | lt =>
        have hswap : bytesCmp b.uuid.bytes a.uuid.bytes = .gt := by
          rw [bytesCmp_swap, hc]
          rfl
        exact absurd hswap h2
    | eq => exact (heq a b).mpr ((bytesCmp_eq_iff _ _).mp hc)
    | gt => exact absurd hc h1
  · intro c h1 h2
    simp only [ShortGuid.le, decide_eq_true_eq] at h1 h2 ⊢
    exact bytesCmp_ne_gt_trans _ _ _ h1 h2

theorem ShortGuid.order_hash_spec_witness :
    ShortGuid.le ⟨Uuid.nil⟩ ⟨⟨List.replicate 16 1⟩⟩ = true →
      ShortGuid.le ⟨⟨List.replicate 16 1⟩⟩ ⟨Uuid.nil⟩ = true →
      (⟨Uuid.nil⟩ : ShortGuid) = ⟨⟨List.replicate 16 1⟩⟩ :=
  (ShortGuid.order_hash_spec ⟨Uuid.nil⟩ ⟨⟨List.replicate 16 1⟩⟩).2.2.2.2.2.1

/-- C2 counterexample: the empty string is neither the 36-character canonical
form nor the 22-character compact form, yet `try_parse` accepts it and
returns the nil identifier instead of an error. -/
theorem ShortGuid.tryParse_empty_accepted :
    ShortGuid.tryParse "" = .ok ⟨Uuid.nil⟩ ∧
    ("" : String).length ≠ 36 ∧ ("" : String).length ≠ 22 :=
  ⟨rfl, by decide, by decide⟩

/-- C2 amended: `try_parse` succeeds exactly on strings matching the canonical
hyphenated 36-character UUID grammar, on 22-byte strings that decode under
URL-safe no-padding base64, and additionally on the empty string; every other
input produces an error. -/
theorem ShortGuid.tryParse_accepted_shapes (s : String) :
    (ShortGuid.tryParse s).isOk = true ↔
      ((Uuid.tryParse s).isSome = true ∨
        ((strBytes s).length = 22 ∧ (b64Decode (strBytes s)).isOk = true) ∨
        s = "") := by
  cases hu : Uuid.tryParse s with
  | some u => simp [ShortGuid.tryParse, hu, Except.isOk, Except.toBool]
  | none =>
      have hmain : (ShortGuid.tryParse s).isOk = (ShortGuid.tryDecode s).isOk := by
        simp only [ShortGuid.tryParse, hu]
        cases hd : ShortGuid.tryDecode s <;> simp [Except.isOk, Except.toBool]
      rw [hmain, tryDecode_isOk_iff]
      simp only [Option.isSome_none, Bool.false_eq_true, false_or]
      tauto

/-- C4 counterexample: an 11-character input of non-ASCII characters occupies
22 UTF-8 bytes; its character length is not 22, yet `try_decode` fails with
`InvalidFormat`, not with `InvalidLength 11` as the claim's reading of
"character length" requires. -/
theorem ShortGuid.tryDecode_charlen_counterexample :
    ("ééééééééééé" : String).length = 11 ∧
    ShortGuid.tryDecode "ééééééééééé" =
      .error (.invalidFormat (.invalidByte 0 195)) :=
  ⟨rfl, rfl⟩

/-- C4 amended: with length measured in UTF-8 bytes (Rust's `str::len`), a
non-empty input of byte length other than 22 fails with `InvalidLength`
carrying that byte length; a 22-byte input that is not valid URL-safe
no-padding base64 fails with `InvalidFormat` carrying the decode error; a
22-byte input that decodes yields exactly 16 bytes and succeeds with them
(the decoded-count-not-16 branch is unreachable). -/
theorem ShortGuid.tryDecode_error_taxonomy (s : String) :
    (s ≠ "" → (strBytes s).length ≠ 22 →
      ShortGuid.tryDecode s = .error (.invalidLength (strBytes s).length)) ∧
    (∀ e, (strBytes s).length = 22 → b64Decode (strBytes s) = .error e →
      ShortGuid.tryDecode s = .error (.invalidFormat e)) ∧
    (∀ bs, (strBytes s).length = 22 → b64Decode (strBytes s) = .ok bs →
      bs.length = 16 ∧ ShortGuid.tryDecode s = .ok ⟨bs⟩) := by
  refine ⟨?_, ?_, ?_⟩
  · intro hs hlen
    have hne : strBytes s ≠ [] := fun hh => hs ((strBytes_nil_iff s).mp hh)
    simp only [ShortGuid.tryDecode]
    rw [if_neg hne, if_pos hlen]
  · intro e hlen hdec
    have hne : strBytes s ≠ [] := by
      intro hh
      rw [hh] at hlen
      simp at hlen
    simp only [ShortGuid.tryDecode]
    rw [if_neg hne, if_neg (by omega)]
    simp only [hdec]
  · intro bs hlen hdec
    have hne : strBytes s ≠ [] := by
      intro hh
      rw [hh] at hlen
      simp at hlen
    have hbs : bs.length = 16 := by
      have hchunks : b64DecodeChunks 0 (strBytes s) = .ok bs := by
        unfold b64Decode at hdec
        rw [if_neg (by omega)] at hdec
        exact hdec
      have := b64DecodeChunks_ok_length _ _ _ hchunks
      omega
    refine ⟨hbs, ?_⟩
    simp only [ShortGuid.tryDecode]
    rw [if_neg hne, if_neg (by omega)]
    simp only [hdec]
    rw [if_neg (by omega)]

theorem ShortGuid.tryDecode_error_taxonomy_witness :
    ShortGuid.tryDecode "abc" = .error (.invalidLength (strBytes "abc").length) ∧
    ShortGuid.tryDecode "AAAAAAAAAAAAAAAAAAAAAA" =
      .ok ⟨[0, 0, 0, 0, 0, 0, 0, 0, 0, 0, 0, 0, 0, 0, 0, 0]⟩ :=
  ⟨(ShortGuid.tryDecode_error_taxonomy "abc").1 (by decide) (by decide),
   ((ShortGuid.tryDecode_error_taxonomy "AAAAAAAAAAAAAAAAAAAAAA").2.2
      [0, 0, 0, 0, 0, 0, 0, 0, 0, 0, 0, 0, 0, 0, 0, 0] (by decide) (by rfl)).2⟩
